import Mathlib

/-!
Verification of the argsx command-line argument library.

A shallow embedding of the argsx Go library (files `argsx.go`, `parser.go`,
`value.go`, `options.go`) together with proofs about its tokenizer and its
typed-value conversion layer.

Go strings are modelled as `List Char` (`Str`); Go's `(T, error)` return
pairs are modelled as `T × Option Str` where `some msg` is a non-nil error
carrying its message; Go maps are modelled as association lists where
insertion prepends (lookup takes the first, i.e. most recent, binding,
which is observably last-write-wins, exactly as a Go map).
-/

/-- Go strings, modelled as lists of characters. -/
abbrev Str := List Char

/-- Turn a Lean string literal into the `Str` model. -/
def gs (s : String) : Str := s.data

/-- Go `strings.HasPrefix(s, pre)`. -/
def hasPrefix (s pre : Str) : Bool := pre.isPrefixOf s

/-- Go `strings.Trim(s, "-")`: remove all leading and all trailing `-`
characters (note: both ends, not only the leading ones). -/
def trimDash (s : Str) : Str :=
  ((s.dropWhile (fun c => c == '-')).reverse.dropWhile (fun c => c == '-')).reverse

/-- Index of the first occurrence of `sep` as a contiguous substring of `s`
(Go `strings.Index`), or `none` if there is no occurrence. -/
def indexOfSub : Str → Str → Option Nat
  | s, sep =>
    if sep.isPrefixOf s then some 0
    else
      match s with
      | [] => none
      | _ :: t => (indexOfSub t sep).map (· + 1)

/-- Fuelled worker for `splitGo`.  Each recursion step removes at least
`sep.length ≥ 1` characters, so with fuel `s.length` the fuel never runs out
before `s` is empty; at fuel 0 the remaining `s` is `[]` and `[s]` is exactly
what the no-occurrence branch returns, so the fuel is semantically
invisible. -/
def splitGoAux : Nat → Str → Str → List Str
  | 0, s, _ => [s]
  | fuel + 1, s, sep =>
    match indexOfSub s sep with
    | none => [s]
    | some i => s.take i :: splitGoAux fuel (s.drop (i + sep.length)) sep

/-- Go `strings.Split(s, sep)`: split around every non-overlapping
occurrence of `sep`; when `sep` is empty, split after every character. -/
def splitGo (s sep : Str) : List Str :=
  if sep = [] then s.map (fun c => [c]) else splitGoAux s.length s sep

/-- A parsed flag record: the raw key as it appeared on the command line
(leading dashes included) and the raw payload (`value.go`, `type Value`). -/
structure Value where
  fullkey : Str
  payload : Str
deriving DecidableEq, Repr

/-- The parsed-flag table: normalized key ↦ record.  Insertion prepends and
lookup takes the first match, which models Go map overwrite/lookup. -/
abbrev Table := List (Str × Value)

/-- Go map lookup `x.values[key]`: the zero `Value` when the key is absent. -/
def tableGet (tbl : Table) (k : Str) : Value :=
  match tbl.find? (fun e => e.1 == k) with
  | some e => e.2
  | none => ⟨[], []⟩

namespace Argsx

/-!
The tokenizer of `parser.go` (methods of the injectable `Argsx` type).  The
receiver's `x.args` field is passed explicitly; the cursor `*idx` is passed
and returned explicitly.  The `sync/atomic`/mutex double-checked `done`
guard of `parseArgs` only makes the scan run at most once per instance and
is invisible to the sequential result, which is what we model.
-/

/-- `(*Argsx).next`: return the token under the cursor and advance, or the
empty string when the cursor is past the end (Go `len(x.args)-1 < *idx`
over `int` is equivalent to `len(x.args) ≤ *idx`). -/
def next (args : List Str) (idx : Nat) : Str × Nat :=
  if args.length ≤ idx then ([], idx)
  else (args.getD idx [], idx + 1)

/-- `(*Argsx).getKV`: produce the next (rawKey, payload) pair starting at
cursor `idx`, returning the advanced cursor.  `strings.Contains(v, "=")`
for the single-character substring `"="` is character membership, and
`strings.SplitN(v, "=", 2)` yields the text before the first `'='` and the
text after it. -/
def getKV (args : List Str) (idx : Nat) : Str × Str × Nat :=
  let p := next args idx
  if hv : p.1 = [] then ([], [], p.2)
  else if hasPrefix p.1 ['-'] = false then getKV args p.2
  else if p.1.contains '=' then
    (p.1.takeWhile (fun c => c != '='), (p.1.dropWhile (fun c => c != '=')).drop 1, p.2)
  else
    let q := next args p.2
    if hasPrefix q.1 ['-'] = false then (p.1, q.1, q.2)
    else (p.1, [], q.2 - 1)
termination_by args.length - idx
decreasing_by
  by_cases h : args.length ≤ idx
  · exact absurd (by simp [p, next, h]) hv
  · simp [next, h]
    omega

/-- When `next` yields a non-empty token, the cursor was in range and has
advanced by one. -/
theorem next_of_nonempty {args : List Str} {idx : Nat} (h : (next args idx).1 ≠ []) :
    idx < args.length ∧ (next args idx).2 = idx + 1 := by
  by_cases hle : args.length ≤ idx
  · exact absurd (by simp [next, hle]) h
  · exact ⟨by omega, by simp [next, hle]⟩

/-- `next` never moves the cursor backwards. -/
theorem next_idx_ge (args : List Str) (idx : Nat) : idx ≤ (next args idx).2 := by
  by_cases hle : args.length ≤ idx <;> simp [next, hle]

/-- `getKV` on an empty `next` token (cursor past the end, or an
empty-string token) returns the terminating `("", "")` pair. -/
theorem getKV_stop {args : List Str} {idx : Nat} (h : (next args idx).1 = []) :
    getKV args idx = ([], [], (next args idx).2) := by
  rw [getKV]
  simp only [h]
  simp

/-- `getKV` skips a non-empty token that does not begin with `-`. -/
theorem getKV_skip {args : List Str} {idx : Nat} (h : (next args idx).1 ≠ [])
    (h2 : hasPrefix (next args idx).1 ['-'] = false) :
    getKV args idx = getKV args (next args idx).2 := by
  rw [getKV]
  simp only [dif_neg h, if_pos h2]

/-- `getKV` on a flag token containing `=` splits it at the first `=`. -/
theorem getKV_eqtok {args : List Str} {idx : Nat} (h : (next args idx).1 ≠ [])
    (h2 : hasPrefix (next args idx).1 ['-'] = true)
    (h3 : (next args idx).1.contains '=' = true) :
    getKV args idx = ((next args idx).1.takeWhile (fun c => c != '='),
      ((next args idx).1.dropWhile (fun c => c != '=')).drop 1, (next args idx).2) := by
  rw [getKV]
  simp only [dif_neg h, h2, h3]
  simp

/-- `getKV` on a bare flag whose successor token does not begin with `-`
consumes that successor as the payload. -/
theorem getKV_bare_val {args : List Str} {idx : Nat} (h : (next args idx).1 ≠ [])
    (h2 : hasPrefix (next args idx).1 ['-'] = true)
    (h3 : (next args idx).1.contains '=' = false)
    (h4 : hasPrefix (next args (next args idx).2).1 ['-'] = false) :
    getKV args idx = ((next args idx).1, (next args (next args idx).2).1,
      (next args (next args idx).2).2) := by
  rw [getKV]
  simp only [dif_neg h, h2, h3, h4]
  simp

/-- `getKV` on a bare flag whose successor token begins with `-` yields an
empty payload and pushes the cursor back onto that successor. -/
theorem getKV_bare_flag {args : List Str} {idx : Nat} (h : (next args idx).1 ≠ [])
    (h2 : hasPrefix (next args idx).1 ['-'] = true)
    (h3 : (next args idx).1.contains '=' = false)
    (h4 : hasPrefix (next args (next args idx).2).1 ['-'] = true) :
    getKV args idx = ((next args idx).1, [], (next args (next args idx).2).2 - 1) := by
  rw [getKV]
  simp only [dif_neg h, h2, h3, h4]
  simp

/-- Whenever `getKV` does not return the terminating `("", "")` pair, it has
read at least one in-range token and strictly advanced the cursor. -/
theorem getKV_progress (args : List Str) (idx : Nat) :
    ((getKV args idx).1 = [] ∧ (getKV args idx).2.1 = []) ∨
    (idx < (getKV args idx).2.2 ∧ idx < args.length) := by
  refine getKV.induct args (fun i =>
    ((getKV args i).1 = [] ∧ (getKV args i).2.1 = []) ∨
    (i < (getKV args i).2.2 ∧ i < args.length)) ?_ ?_ ?_ ?_ ?_ idx
  case _ =>
    intro i p hv
    rw [getKV_stop hv]
    simp
  case _ =>
    intro i p hv hpre ih
    rw [getKV_skip hv hpre]
    obtain ⟨hlt, hnext⟩ := next_of_nonempty hv
    rcases ih with h | h
    · exact Or.inl h
    · have h' : (next args i).2 < (getKV args (next args i).2).2.2 := h.1
      refine Or.inr ⟨?_, hlt⟩
      show i < (getKV args (next args i).2).2.2
      omega
  case _ =>
    intro i p hv hpre hc
    rw [getKV_eqtok hv (by simpa using hpre) (by simpa using hc)]
    obtain ⟨hlt, hnext⟩ := next_of_nonempty hv
    exact Or.inr ⟨by simp [hnext], hlt⟩
  case _ =>
    intro i p hv hpre hc q hq
    rw [getKV_bare_val hv (by simpa using hpre) (by simpa using hc) hq]
    obtain ⟨hlt, hnext⟩ := next_of_nonempty hv
    have h5 := next_idx_ge args (next args i).2
    refine Or.inr ⟨?_, hlt⟩
    show i < (next args (next args i).2).2
    omega
  case _ =>
    intro i p hv hpre hc q hq
    have hq' : hasPrefix (next args (next args i).2).1 ['-'] = true := by simpa using hq
    rw [getKV_bare_flag hv (by simpa using hpre) (by simpa using hc) hq']
    obtain ⟨hlt, hnext⟩ := next_of_nonempty hv
    have hqne : (next args (next args i).2).1 ≠ [] := by
      intro he
      rw [he] at hq'
      simp [hasPrefix, List.isPrefixOf] at hq'
    obtain ⟨hlt2, hnext2⟩ := next_of_nonempty hqne
    refine Or.inr ⟨?_, hlt⟩
    show i < (next args (next args i).2).2 - 1
    omega

/-- The loop body of `(*Argsx).parseArgs`: repeatedly take (key, value)
pairs from `getKV`, stop at the `("", "")` sentinel, and store each record
under `strings.Trim(key, "-")`. -/
def parseArgsLoop (args : List Str) (idx : Nat) (tbl : Table) : Table :=
  let r := getKV args idx
  if r.1 = [] ∧ r.2.1 = [] then tbl
  else parseArgsLoop args r.2.2 ((trimDash r.1, ⟨r.1, r.2.1⟩) :: tbl)
termination_by args.length + 1 - idx
decreasing_by
  rcases getKV_progress args idx with h | h
  · exact absurd h (by assumption)
  · omega

/-- `(*Argsx).parseArgs`: scan `x.args` starting at index 1 into the table. -/
def parseArgs (args : List Str) : Table := parseArgsLoop args 1 []

/-- Loop unfolding: terminating step. -/
theorem parseArgsLoop_stop {args : List Str} {idx : Nat} {tbl : Table}
    (h : (getKV args idx).1 = [] ∧ (getKV args idx).2.1 = []) :
    parseArgsLoop args idx tbl = tbl := by
  rw [parseArgsLoop]
  simp only [if_pos h]

/-- Loop unfolding: recording step. -/
theorem parseArgsLoop_step {args : List Str} {idx : Nat} {tbl : Table}
    (h : ¬ ((getKV args idx).1 = [] ∧ (getKV args idx).2.1 = [])) :
    parseArgsLoop args idx tbl = parseArgsLoop args (getKV args idx).2.2
      ((trimDash (getKV args idx).1, ⟨(getKV args idx).1, (getKV args idx).2.1⟩) :: tbl) := by
  rw [parseArgsLoop]
  simp only [if_neg h]

/-- Fuelled clone of `getKV`, used only to evaluate concrete argument lists
by `decide` (the well-founded recursion of `getKV` does not reduce in the
kernel).  `getKVF_eq` shows the fuel is semantically invisible once it is at
least `args.length + 1 - idx`: at fuel 0 the cursor is past the end and the
returned sentinel agrees with `getKV`. -/
def getKVF (args : List Str) : Nat → Nat → Str × Str × Nat
  | 0, idx => ([], [], idx)
  | fuel + 1, idx =>
    let p := next args idx
    if p.1 = [] then ([], [], p.2)
    else if hasPrefix p.1 ['-'] = false then getKVF args fuel p.2
    else if p.1.contains '=' then
      (p.1.takeWhile (fun c => c != '='), (p.1.dropWhile (fun c => c != '=')).drop 1, p.2)
    else
      let q := next args p.2
      if hasPrefix q.1 ['-'] = false then (p.1, q.1, q.2)
      else (p.1, [], q.2 - 1)

/-- The fuelled and the well-founded `getKV` agree whenever the fuel covers
the remaining distance to the end of the argument list. -/
theorem getKVF_eq (args : List Str) : ∀ (fuel idx : Nat),
    args.length + 1 - idx ≤ fuel → getKVF args fuel idx = getKV args idx := by
  intro fuel
  induction fuel with
  | zero =>
    intro idx hb
    have hge : args.length ≤ idx := by omega
    have hstop : (next args idx).1 = [] := by simp [next, hge]
    rw [getKV_stop hstop]
    simp [getKVF, next, hge]
  | succ fuel ih =>
    intro idx hb
    by_cases hv : (next args idx).1 = []
    · rw [getKV_stop hv]
      simp [getKVF, hv]
    · by_cases hpre : hasPrefix (next args idx).1 ['-'] = false
      · rw [getKV_skip hv hpre]
        obtain ⟨hlt, hnext⟩ := next_of_nonempty hv
        have : getKVF args (fuel + 1) idx = getKVF args fuel (next args idx).2 := by
          rw [getKVF]
          simp only [if_neg hv, if_pos hpre]
        rw [this]
        exact ih (next args idx).2 (by omega)
      · have hpre' : hasPrefix (next args idx).1 ['-'] = true := by
          simpa using hpre
        by_cases hc : (next args idx).1.contains '=' = true
        · rw [getKV_eqtok hv hpre' hc, getKVF]
          simp only [if_neg hv, if_neg hpre, if_pos hc]
        · have hc' : (next args idx).1.contains '=' = false := by simpa using hc
          by_cases hq : hasPrefix (next args (next args idx).2).1 ['-'] = false
          · rw [getKV_bare_val hv hpre' hc' hq, getKVF]
            simp only [if_neg hv, if_neg hpre, if_neg hc, if_pos hq]
          · rw [getKV_bare_flag hv hpre' hc' (by simpa using hq), getKVF]
            simp only [if_neg hv, if_neg hpre, if_neg hc, if_neg hq]

/-- Fuelled clone of `parseArgsLoop`, for `decide` on concrete lists. -/
def parseArgsLoopF (args : List Str) : Nat → Nat → Table → Table
  | 0, _, tbl => tbl
  | fuel + 1, idx, tbl =>
    let r := getKVF args (fuel + 1) idx
    if r.1 = [] ∧ r.2.1 = [] then tbl
    else parseArgsLoopF args fuel r.2.2 ((trimDash r.1, ⟨r.1, r.2.1⟩) :: tbl)

/-- The fuelled and the well-founded parse loop agree whenever the fuel
covers the remaining distance. -/
theorem parseArgsLoopF_eq (args : List Str) : ∀ (fuel idx : Nat) (tbl : Table),
    args.length + 1 - idx ≤ fuel → parseArgsLoopF args fuel idx tbl = parseArgsLoop args idx tbl := by
  intro fuel
  induction fuel with
  | zero =>
    intro idx tbl hb
    have hge : args.length ≤ idx := by omega
    have hstop : (next args idx).1 = [] := by simp [next, hge]
    rw [parseArgsLoop_stop (by rw [getKV_stop hstop]; exact ⟨rfl, rfl⟩)]
    rfl
  | succ fuel ih =>
    intro idx tbl hb
    have hk : getKVF args (fuel + 1) idx = getKV args idx := getKVF_eq args (fuel + 1) idx hb
    by_cases hstop : (getKV args idx).1 = [] ∧ (getKV args idx).2.1 = []
    · rw [parseArgsLoop_stop hstop, parseArgsLoopF]
      simp only [hk, if_pos hstop]
    · rw [parseArgsLoop_step hstop, parseArgsLoopF]
      simp only [hk, if_neg hstop]
      rcases getKV_progress args idx with hc | hc
      · exact absurd hc hstop
      · exact ih (getKV args idx).2.2 _ (by omega)

/-- Fuelled clone of `parseArgs`: evaluable by `decide`. -/
def parseArgsF (args : List Str) : Table := parseArgsLoopF args args.length 1 []

/-- `parseArgs` can be evaluated through its fuelled clone. -/
theorem parseArgs_eval (args : List Str) : parseArgs args = parseArgsF args :=
  (parseArgsLoopF_eq args args.length 1 [] (by omega)).symm

end Argsx

namespace DefaultArgsx

/-!
The tokenizer of `argsx.go` (methods of the package-level `argsx` struct
behind `Fetch`).  It reads `os.Args` instead of an injected `x.args` field,
and guards `parseArgs` with `sync.Once` instead of a mutex plus an atomic
`done` flag; the scan itself is the same code.  `os.Args` is passed
explicitly, and the at-most-once guard is invisible to the sequential
result. -/

/-- `(*argsx).next`: like `Argsx.next`, reading `os.Args`. -/
def next (args : List Str) (idx : Nat) : Str × Nat :=
  if args.length ≤ idx then ([], idx)
  else (args.getD idx [], idx + 1)

/-- `(*argsx).getKV`: same scan as `(*Argsx).getKV`, over `os.Args`. -/
def getKV (args : List Str) (idx : Nat) : Str × Str × Nat :=
  let p := next args idx
  if hv : p.1 = [] then ([], [], p.2)
  else if hasPrefix p.1 ['-'] = false then getKV args p.2
  else if p.1.contains '=' then
    (p.1.takeWhile (fun c => c != '='), (p.1.dropWhile (fun c => c != '=')).drop 1, p.2)
  else
    let q := next args p.2
    if hasPrefix q.1 ['-'] = false then (p.1, q.1, q.2)
    else (p.1, [], q.2 - 1)
termination_by args.length - idx
decreasing_by
  by_cases h : args.length ≤ idx
  · exact absurd (by simp [p, next, h]) hv
  · simp [next, h]
    omega

/-- `(*argsx).getKV` case: terminating pair on an empty `next` token. -/
theorem getKV_stop_os {args : List Str} {idx : Nat} (h : (next args idx).1 = []) :
    getKV args idx = ([], [], (next args idx).2) := by
  rw [getKV]
  simp only [h]
  simp

/-- `(*argsx).getKV` case: skip a non-empty token without a `-` prefix. -/
theorem getKV_skip_os {args : List Str} {idx : Nat} (h : (next args idx).1 ≠ [])
    (h2 : hasPrefix (next args idx).1 ['-'] = false) :
    getKV args idx = getKV args (next args idx).2 := by
  rw [getKV]
  simp only [dif_neg h, if_pos h2]

/-- `(*argsx).getKV` case: split a flag token containing `=`. -/
theorem getKV_eqtok_os {args : List Str} {idx : Nat} (h : (next args idx).1 ≠ [])
    (h2 : hasPrefix (next args idx).1 ['-'] = true)
    (h3 : (next args idx).1.contains '=' = true) :
    getKV args idx = ((next args idx).1.takeWhile (fun c => c != '='),
      ((next args idx).1.dropWhile (fun c => c != '=')).drop 1, (next args idx).2) := by
  rw [getKV]
  simp only [dif_neg h, h2, h3]
  simp

/-- `(*argsx).getKV` case: bare flag followed by a non-flag payload. -/
theorem getKV_bare_val_os {args : List Str} {idx : Nat} (h : (next args idx).1 ≠ [])
    (h2 : hasPrefix (next args idx).1 ['-'] = true)
    (h3 : (next args idx).1.contains '=' = false)
    (h4 : hasPrefix (next args (next args idx).2).1 ['-'] = false) :
    getKV args idx = ((next args idx).1, (next args (next args idx).2).1,
      (next args (next args idx).2).2) := by
  rw [getKV]
  simp only [dif_neg h, h2, h3, h4]
  simp

/-- `(*argsx).getKV` case: bare flag followed by another flag. -/
theorem getKV_bare_flag_os {args : List Str} {idx : Nat} (h : (next args idx).1 ≠ [])
    (h2 : hasPrefix (next args idx).1 ['-'] = true)
    (h3 : (next args idx).1.contains '=' = false)
    (h4 : hasPrefix (next args (next args idx).2).1 ['-'] = true) :
    getKV args idx = ((next args idx).1, [], (next args (next args idx).2).2 - 1) := by
  rw [getKV]
  simp only [dif_neg h, h2, h3, h4]
  simp

/-- The `argsx.go` scan and the `parser.go` scan compute the same
(key, value, cursor) triples: the two `getKV`s agree on every input. -/
theorem getKV_eq (args : List Str) (idx : Nat) :
    getKV args idx = Argsx.getKV args idx := by
  refine Argsx.getKV.induct args (fun i => getKV args i = Argsx.getKV args i)
    ?_ ?_ ?_ ?_ ?_ idx
  case _ =>
    intro i p hv
    rw [getKV_stop_os hv, Argsx.getKV_stop hv]
    rfl
  case _ =>
    intro i p hv hpre ih
    rw [getKV_skip_os hv hpre, Argsx.getKV_skip hv hpre]
    exact ih
  case _ =>
    intro i p hv hpre hc
    rw [getKV_eqtok_os hv (by simpa using hpre) (by simpa using hc),
      Argsx.getKV_eqtok hv (by simpa using hpre) (by simpa using hc)]
    rfl
  case _ =>
    intro i p hv hpre hc q hq
    rw [getKV_bare_val_os hv (by simpa using hpre) (by simpa using hc) hq,
      Argsx.getKV_bare_val hv (by simpa using hpre) (by simpa using hc) hq]
    rfl
  case _ =>
    intro i p hv hpre hc q hq
    rw [getKV_bare_flag_os hv (by simpa using hpre) (by simpa using hc) (by simpa using hq),
      Argsx.getKV_bare_flag hv (by simpa using hpre) (by simpa using hc) (by simpa using hq)]
    rfl

/-- The `sync.Once` body of `(*argsx).parseArgs`, looping from index 1. -/
def parseArgsLoop (args : List Str) (idx : Nat) (tbl : Table) : Table :=
  let r := getKV args idx
  if r.1 = [] ∧ r.2.1 = [] then tbl
  else parseArgsLoop args r.2.2 ((trimDash r.1, ⟨r.1, r.2.1⟩) :: tbl)
termination_by args.length + 1 - idx
decreasing_by
  have hpr : ((getKV args idx).1 = [] ∧ (getKV args idx).2.1 = []) ∨
      (idx < (getKV args idx).2.2 ∧ idx < args.length) := by
    rw [getKV_eq]
    exact Argsx.getKV_progress args idx
  rcases hpr with h | h
  · exact absurd h (by assumption)
  · omega

/-- `(*argsx).parseArgs`: scan `os.Args` starting at index 1 into the table. -/
def parseArgs (args : List Str) : Table := parseArgsLoop args 1 []

/-- The two parse loops agree on every cursor position and accumulator. -/
theorem parseArgsLoop_eq (args : List Str) : ∀ idx tbl,
    parseArgsLoop args idx tbl = Argsx.parseArgsLoop args idx tbl := by
  intro idx tbl
  refine Argsx.parseArgsLoop.induct args
    (fun i t => parseArgsLoop args i t = Argsx.parseArgsLoop args i t) ?_ ?_ idx tbl
  case _ =>
    intro i t r h
    rw [Argsx.parseArgsLoop_stop h, parseArgsLoop, getKV_eq]
    simp only [if_pos h]
  case _ =>
    intro i t r h ih
    rw [Argsx.parseArgsLoop_step h, parseArgsLoop, getKV_eq]
    simp only [if_neg h]
    exact ih

/-- The two `parseArgs` implementations agree on every argument list. -/
theorem parseArgs_eq (args : List Str) : parseArgs args = Argsx.parseArgs args :=
  parseArgsLoop_eq args 1 []

end DefaultArgsx

/-- `Fetch` (`argsx.go`): lazily parse `os.Args` once, then look the
normalized key up in the package-level table. -/
def Fetch (osArgs : List Str) (key : Str) : Value :=
  tableGet (DefaultArgsx.parseArgs osArgs) key

/-!
The Go standard-library string conversions used by `value.go`.

`value.go` delegates scalar parsing to `strconv` (`ParseBool`, `Atoi`,
`ParseInt`).  These are embedded faithfully from the Go standard library
(`strconv/atoi.go`), since the spec's overflow and error-taxonomy claims are
decided by their behaviour.  `uint64` arithmetic is modelled as `Nat` with
explicit `% 2^64` where Go can wrap.
-/

/-- Go `strconv`'s `lower(c) = c | ('x' - 'X')`. -/
def lower (c : Char) : Char := Char.ofNat (c.toNat ||| 32)

/-- Error kinds of `strconv.NumError`: `ErrSyntax` and `ErrRange`. -/
inductive ErrKind where
  | syn : ErrKind
  | range : ErrKind
deriving DecidableEq, Repr

/-- `strconv.NumError`: the failing function, the offending text, the kind. -/
structure NumError where
  fn : Str
  num : Str
  kind : ErrKind
deriving DecidableEq, Repr

/-- Go `strconv.Quote`; on the argument strings arising here (printable
ASCII without quotes or backslashes) it only wraps in double quotes. -/
def quoteGo (s : Str) : Str := '"' :: (s ++ ['"'])

/-- `(*NumError).Error()`: `strconv.<fn>: parsing <quoted>: <reason>`. -/
def NumError.render (e : NumError) : Str :=
  gs "strconv." ++ e.fn ++ gs ": parsing " ++ quoteGo e.num ++ gs ": " ++
    (match e.kind with
     | .syn => gs "invalid syntax"
     | .range => gs "value out of range")

/-- The digit loop of `strconv.ParseUint`: `n` is the `uint64` accumulator,
`und` records whether an underscore was seen.  Returns the accumulator, the
underscore flag and an error exactly as the Go loop's early returns do. -/
def parseUintLoop (base : Nat) (base0 : Bool) (cutoff maxVal : Nat) (s0 : Str) :
    List Char → Nat → Bool → Nat × Bool × Option NumError
  | [], n, und => (n, und, none)
  | c :: rest, n, und =>
    if c = '_' ∧ base0 then parseUintLoop base base0 cutoff maxVal s0 rest n true
    else
      let d? : Option Nat :=
        if '0' ≤ c ∧ c ≤ '9' then some (c.toNat - 48)
        else if 'a' ≤ lower c ∧ lower c ≤ 'z' then some ((lower c).toNat - 97 + 10)
        else none
      match d? with
      | none => (0, und, some ⟨gs "ParseUint", s0, .syn⟩)
      | some d =>
        if base ≤ d then (0, und, some ⟨gs "ParseUint", s0, .syn⟩)
        else if cutoff ≤ n then (maxVal, und, some ⟨gs "ParseUint", s0, .range⟩)
        else
          let n' := (n * base) % 2 ^ 64
          let n1 := (n' + d) % 2 ^ 64
          if n1 < n' ∨ maxVal < n1 then (maxVal, und, some ⟨gs "ParseUint", s0, .range⟩)
          else parseUintLoop base base0 cutoff maxVal s0 rest n1 und

/-- The underscore-placement validation loop of `strconv.underscoreOK`;
`saw` is the last-seen character class (`^` start, `0` digit, `_`, `!`
other). -/
def underscoreOKLoop (hex : Bool) : List Char → Char → Bool
  | [], saw => saw != '_'
  | c :: rest, saw =>
    if ('0' ≤ c ∧ c ≤ '9') ∨ (hex ∧ 'a' ≤ lower c ∧ lower c ≤ 'f') then
      underscoreOKLoop hex rest '0'
    else if c = '_' then
      if saw ≠ '0' then false else underscoreOKLoop hex rest '_'
    else if saw = '_' then false
    else underscoreOKLoop hex rest '!'

/-- Go `strconv.underscoreOK`: underscores must separate successive digits
and may follow a base prefix. -/
def underscoreOK (s : Str) : Bool :=
  let s1 := match s with
    | c :: rest => if c = '-' ∨ c = '+' then rest else c :: rest
    | [] => []
  match s1 with
  | c0 :: c1 :: rest =>
    if c0 = '0' ∧ (lower c1 = 'b' ∨ lower c1 = 'o' ∨ lower c1 = 'x') then
      underscoreOKLoop (lower c1 = 'x') rest '0'
    else underscoreOKLoop false (c0 :: c1 :: rest) '^'
  | other => underscoreOKLoop false other '^'

/-- Go `strconv.ParseUint(s, base, bitSize)` (callers here pass base 0 or
10, and bit sizes 8/16/32/64; `IntSize` is 64).  `maxVal` is
`uint64(1)<<bitSize - 1`, which for every `bitSize ≤ 64` equals
`2^bitSize - 1` after the `uint64` wrap. -/
def ParseUint (s : Str) (base bitSize : Nat) : Nat × Option NumError :=
  if s = [] then (0, some ⟨gs "ParseUint", s, .syn⟩)
  else
    let base0 := base == 0
    let s0 := s
    let pick : Nat × Str :=
      if 2 ≤ base ∧ base ≤ 36 then (base, s)
      else if base = 0 then
        if s.head? = some '0' then
          if 3 ≤ s.length ∧ lower (s.getD 1 ' ') = 'b' then (2, s.drop 2)
          else if 3 ≤ s.length ∧ lower (s.getD 1 ' ') = 'o' then (8, s.drop 2)
          else if 3 ≤ s.length ∧ lower (s.getD 1 ' ') = 'x' then (16, s.drop 2)
          else (8, s.drop 1)
        else (10, s)
      else (0, [])
    if ¬ (2 ≤ base ∧ base ≤ 36) ∧ base ≠ 0 then
      (0, some ⟨gs "ParseUint", s0, .syn⟩)
    else
      let b := pick.1
      let s2 := pick.2
      let bitSize' := if bitSize = 0 then 64 else bitSize
      if 64 < bitSize' then (0, some ⟨gs "ParseUint", s0, .syn⟩)
      else
        let cutoff := (2 ^ 64 - 1) / b + 1
        let maxVal := 2 ^ bitSize' - 1
        match parseUintLoop b base0 cutoff maxVal s0 s2 0 false with
        | (n, und, none) =>
          if und ∧ underscoreOK s0 = false then (0, some ⟨gs "ParseUint", s0, .syn⟩)
          else (n, none)
        | (n, _, some e) => (n, some e)

/-- Go `strconv.ParseInt(s, base, bitSize)`.  On success the `int64`
conversion of `un` is the plain integer value (in the negative boundary
case `un = cutoff = 2^63` the Go wrap-and-negate also lands on `-2^63`,
which is what plain negation gives). -/
def ParseInt (s : Str) (base bitSize : Nat) : Int × Option NumError :=
  if s = [] then (0, some ⟨gs "ParseInt", s, .syn⟩)
  else
    let s0 := s
    let signed : Bool × Str :=
      match s with
      | [] => (false, [])
      | c :: rest =>
        if c = '+' then (false, rest)
        else if c = '-' then (true, rest)
        else (false, c :: rest)
    let neg := signed.1
    let p := ParseUint signed.2 base bitSize
    let un := p.1
    match p.2 with
    | some e =>
      if e.kind ≠ ErrKind.range then
        (0, some { e with fn := gs "ParseInt", num := s0 })
      else
        parseIntRange s0 neg un bitSize
    | none => parseIntRange s0 neg un bitSize
where
  /-- The range check and final negation shared by both paths after
  `ParseUint` returns (Go falls through when the error is `ErrRange`). -/
  parseIntRange (s0 : Str) (neg : Bool) (un bitSize : Nat) : Int × Option NumError :=
    let bitSize' := if bitSize = 0 then 64 else bitSize
    let cutoff : Nat := 2 ^ (bitSize' - 1)
    if neg = false ∧ cutoff ≤ un then
      (Int.ofNat (cutoff - 1), some ⟨gs "ParseInt", s0, .range⟩)
    else if neg = true ∧ cutoff < un then
      (-(Int.ofNat cutoff), some ⟨gs "ParseInt", s0, .range⟩)
    else if neg then (-(Int.ofNat un), none)
    else (Int.ofNat un, none)

/-- The fast-path digit loop of `strconv.Atoi`; `ch -= '0'; if ch > 9` is
`byte` arithmetic, so a character below `'0'` wraps above 9. -/
def atoiLoop (s0 : Str) : List Char → Int → Int × Option NumError
  | [], n => (n, none)
  | ch :: rest, n =>
    let d := (ch.toNat + 256 - 48) % 256
    if 9 < d then (0, some ⟨gs "Atoi", s0, .syn⟩)
    else atoiLoop s0 rest (n * 10 + d)

/-- Go `strconv.Atoi` (64-bit `int`): fast path for 1–18 characters, else
`ParseInt(s, 10, 0)` with the error relabelled. -/
def Atoi (s : Str) : Int × Option NumError :=
  if 0 < s.length ∧ s.length < 19 then
    match s with
    | [] => (0, some ⟨gs "Atoi", s, .syn⟩)
    | c :: rest =>
      if c = '-' ∨ c = '+' then
        if rest.length < 1 then (0, some ⟨gs "Atoi", c :: rest, .syn⟩)
        else
          match atoiLoop (c :: rest) rest 0 with
          | (n, none) => (if c = '-' then -n else n, none)
          | (_, some e) => (0, some e)
      else
        match atoiLoop (c :: rest) (c :: rest) 0 with
        | (n, none) => (n, none)
        | (_, some e) => (0, some e)
  else
    let p := ParseInt s 10 0
    (p.1, p.2.map (fun e => { e with fn := gs "Atoi" }))

/-- Go `strconv.ParseBool`: the accepted true/false token forms. -/
def parseBool (s : Str) : Bool × Option Str :=
  if s = gs "1" ∨ s = gs "t" ∨ s = gs "T" ∨ s = gs "true" ∨ s = gs "TRUE" ∨ s = gs "True" then
    (true, none)
  else if s = gs "0" ∨ s = gs "f" ∨ s = gs "F" ∨ s = gs "false" ∨ s = gs "FALSE" ∨ s = gs "False" then
    (false, none)
  else (false, some (NumError.render ⟨gs "ParseBool", s, .syn⟩))

/-!
The `options.go` machinery and the typed-value layer of `value.go`.

Go's functional option `Option[T any] func(*options[T])` is modelled as a
function on the options record; the variadic option list is a `List`.
`Option` clashes with Lean's `Option`, so the Go type is named `OptionF`.
-/

/-- `options[T any]`: slice delimiter and optional default sequence.  A Go
`nil` slice field is `none`. -/
structure options (T : Type) where
  delimiter : Str
  defaultV : Option (List T)

/-- `Option[T any] func(*options[T])`. -/
abbrev OptionF (T : Type) := options T → options T

/-- `getOpts`: apply the option list to the defaults (delimiter `","`). -/
def getOpts {T : Type} (opts : List (OptionF T)) : options T :=
  opts.foldl (fun op opt => opt op) { delimiter := gs ",", defaultV := none }

/-- `(options[T]).getDefault`: `nil` maps to an empty `[][]T`, otherwise to
the one-element `[][]T` wrapping the default sequence. -/
def options.getDefault {T : Type} (o : options T) : List (List T) :=
  match o.defaultV with
  | none => []
  | some dv => [dv]

/-- `WithDelimiter[T](delimiter)`. -/
def WithDelimiter (T : Type) (delimiter : Str) : OptionF T :=
  fun o => { o with delimiter := delimiter }

/-- `WithDefault[T](dv...)` for a call with an explicit argument list,
whose variadic slice is non-nil.  (Go's degenerate zero-argument call
`WithDefault()` passes a nil slice and installs no default; that corner is
not representable with a plain `List` argument and is used nowhere here.) -/
def WithDefault (T : Type) (dv : List T) : OptionF T :=
  fun o => { o with defaultV := some dv }

/-- `NewValue(payload)`: a `Value` with payload only, no originating key. -/
def NewValue (payload : Str) : Value := ⟨[], payload⟩

/-- Alias used in `Value` method signatures, where the Go method names
(`Value.Bool`, `Value.Int`, …) would otherwise shadow the Lean type
names inside the `Value` namespace. -/
abbrev GoBool := Bool

/-- `Int` alias for `Value` method signatures; see `GoBool`. -/
abbrev GoInt := Int

/-- `value.go`'s generic `get`: empty payload takes the first caller
default if any, otherwise errors (a generic message for key-less values, a
message naming `v.fullkey` for table-originated ones); non-empty payload is
parsed.  The Go zero value of `T` is `default`. -/
def get {T : Type} [Inhabited T] (v : Value) (dv : List T)
    (parse : Str → T × Option Str) : T × Option Str :=
  if v.payload.length = 0 then
    match dv with
    | d :: _ => (d, none)
    | [] =>
      if v.fullkey.length = 0 then (default, some (gs "invalid value: empty"))
      else (default, some (gs "args not specified value for key: `" ++ v.fullkey ++ gs "`"))
  else parse v.payload

/-- Unfolding lemma for `get` (the bare name `get` is ambiguous with
`MonadState.get` in rewrite lists). -/
theorem get_unfold {T : Type} [Inhabited T] (v : Value) (dv : List T)
    (parse : Str → T × Option Str) :
    get v dv parse =
      (if v.payload.length = 0 then
        match dv with
        | d :: _ => (d, none)
        | [] =>
          if v.fullkey.length = 0 then ((default : T), some (gs "invalid value: empty"))
          else ((default : T), some (gs "args not specified value for key: `" ++ v.fullkey ++ gs "`"))
      else parse v.payload) := rfl

/-- `value.go`'s `must`: drop the value and return the zero value whenever
the error is non-nil. -/
def must {T : Type} [Inhabited T] (p : T × Option Str) : T :=
  match p.2 with
  | some _ => default
  | none => p.1

/-- The loop of `value.go`'s `toSlice`: empty segments append the first
default element if one was supplied and are skipped otherwise; the first
parse failure aborts with `nil`. -/
def toSliceAux {T : Type} (parse : Str → T × Option Str) (dv : List T) :
    List Str → List T → List T × Option Str
  | [], slice => (slice, none)
  | str :: rest, slice =>
    if str.length = 0 then
      match dv with
      | [] => toSliceAux parse dv rest slice
      | d :: _ => toSliceAux parse dv rest (slice ++ [d])
    else
      match parse str with
      | (_, some e) => ([], some e)
      | (b, none) => toSliceAux parse dv rest (slice ++ [b])

/-- `toSlice(payload, delimiter, parse, dv...)`. -/
def toSlice {T : Type} (payload delimiter : Str) (parse : Str → T × Option Str)
    (dv : List T) : List T × Option Str :=
  toSliceAux parse dv (splitGo payload delimiter) []

/-- `Value.String`. -/
def Value.String (v : Value) (dv : List Str) : Str × Option Str :=
  get v dv (fun payload => (payload, none))

/-- `Value.MustString`. -/
def Value.MustString (v : Value) (dv : List Str) : Str :=
  must (v.String dv)

/-- `Value.StringSlice`. -/
def Value.StringSlice (v : Value) (opts : List (OptionF Str)) : List Str × Option Str :=
  let option := getOpts opts
  get v option.getDefault (fun payload => (splitGo payload option.delimiter, none))

/-- `Value.MustStringSlice`. -/
def Value.MustStringSlice (v : Value) (opts : List (OptionF Str)) : List Str :=
  must (v.StringSlice opts)

/-- `Value.Bool`: note the unconditional `append(dv, true)`, which makes
`true` the fallback default for an empty payload when the caller supplied
none. -/
def Value.Bool (v : Value) (dv : List GoBool) : GoBool × Option Str :=
  get v (dv ++ [true]) parseBool

/-- `Value.MustBool`. -/
def Value.MustBool (v : Value) (dv : List GoBool) : GoBool :=
  must (v.Bool dv)

/-- `Value.BoolSlice`: the slice-builder always receives `true` as the
default element, independent of the caller's options. -/
def Value.BoolSlice (v : Value) (opts : List (OptionF GoBool)) : List GoBool × Option Str :=
  let option := getOpts opts
  get v option.getDefault (fun payload => toSlice payload option.delimiter parseBool [true])

/-- `Value.MustBoolSlice`. -/
def Value.MustBoolSlice (v : Value) (opts : List (OptionF GoBool)) : List GoBool :=
  must (v.BoolSlice opts)

/-- Modelled from the spec: `time.ParseDuration` is Go standard-library
code, not part of this repository; the spec describes durations only as "a
magnitude+unit grammar, e.g. `3s`, `1m`".  The model accepts a decimal
magnitude followed by one unit among ns/us/ms/s/m/h, yielding nanoseconds
(`time.Duration` is an `int64` nanosecond count), and rejects anything
else. -/
def parseDuration (s : Str) : Int × Option Str :=
  let ds := s.takeWhile (fun c => c.isDigit)
  let u := s.dropWhile (fun c => c.isDigit)
  let unit : Option Int :=
    if u = gs "ns" then some 1
    else if u = gs "us" then some 1000
    else if u = gs "ms" then some 1000000
    else if u = gs "s" then some 1000000000
    else if u = gs "m" then some 60000000000
    else if u = gs "h" then some 3600000000000
    else none
  match ds, unit with
  | [], _ => (0, some (gs "time: invalid duration " ++ quoteGo s))
  | _, none => (0, some (gs "time: unknown unit in duration " ++ quoteGo s))
  | ds, some m => ((ds.foldl (fun n c => n * 10 + (c.toNat - 48)) 0 : Nat) * m, none)

/-- `Value.Duration`. -/
def Value.Duration (v : Value) (dv : List GoInt) : GoInt × Option Str :=
  get v dv parseDuration

/-- `Value.MustDuration`. -/
def Value.MustDuration (v : Value) (dv : List GoInt) : GoInt :=
  must (v.Duration dv)

/-- `Value.DurationSlice`. -/
def Value.DurationSlice (v : Value) (opts : List (OptionF GoInt)) : List GoInt × Option Str :=
  let option := getOpts opts
  get v option.getDefault (fun payload => toSlice payload option.delimiter parseDuration [])

/-- `Value.MustDurationSlice`. -/
def Value.MustDurationSlice (v : Value) (opts : List (OptionF GoInt)) : List GoInt :=
  must (v.DurationSlice opts)

/-- `Value.MustTimeSlice` exactly as written in `value.go`: despite its
name and its documentation comment promising `[]time.Time`, its signature
takes `opts ...Option[time.Duration]` and its body is
`must(v.DurationSlice(opts...))` — it ignores `layout` entirely and never
calls `TimeSlice`.  (`Value.Time`/`TimeSlice` themselves wrap
`time.Parse`, which nothing in the claims needs.) -/
def Value.MustTimeSlice (v : Value) (layout : Str) (opts : List (OptionF GoInt)) : List GoInt :=
  must (v.DurationSlice opts)

/-- `Value.Int` (`strconv.Atoi`, with the error message rendered). -/
def Value.Int (v : Value) (dv : List GoInt) : GoInt × Option Str :=
  get v dv (fun payload =>
    let p := Atoi payload
    (p.1, p.2.map NumError.render))

/-- `Value.MustInt`. -/
def Value.MustInt (v : Value) (dv : List GoInt) : GoInt :=
  must (v.Int dv)

/-- `Value.IntSlice`. -/
def Value.IntSlice (v : Value) (opts : List (OptionF GoInt)) : List GoInt × Option Str :=
  let option := getOpts opts
  get v option.getDefault (fun payload =>
    toSlice payload option.delimiter (fun seg =>
      let p := Atoi seg
      (p.1, p.2.map NumError.render)) [])

/-- `Value.MustIntSlice`. -/
def Value.MustIntSlice (v : Value) (opts : List (OptionF GoInt)) : List GoInt :=
  must (v.IntSlice opts)

/-- `parseInt8`: `strconv.ParseInt(payload, 0, 8)`; on success `int8(i)` is
the identity because `-128 ≤ i ≤ 127`, on failure the zero value is
returned with the error. -/
def parseInt8 (payload : Str) : Int × Option Str :=
  match ParseInt payload 0 8 with
  | (i, none) => (i, none)
  | (_, some e) => (0, some (NumError.render e))

/-- `Value.Int8`. -/
def Value.Int8 (v : Value) (dv : List GoInt) : GoInt × Option Str :=
  get v dv parseInt8

/-- `Value.MustInt8`. -/
def Value.MustInt8 (v : Value) (dv : List GoInt) : GoInt :=
  must (v.Int8 dv)

/-- `Value.Int8Slice`. -/
def Value.Int8Slice (v : Value) (opts : List (OptionF GoInt)) : List GoInt × Option Str :=
  let option := getOpts opts
  get v option.getDefault (fun payload => toSlice payload option.delimiter parseInt8 [])

/-- `Value.MustInt8Slice`. -/
def Value.MustInt8Slice (v : Value) (opts : List (OptionF GoInt)) : List GoInt :=
  must (v.Int8Slice opts)

/-- `parseInt16`: `strconv.ParseInt(payload, 0, 16)` with zero on error. -/
def parseInt16 (payload : Str) : Int × Option Str :=
  match ParseInt payload 0 16 with
  | (i, none) => (i, none)
  | (_, some e) => (0, some (NumError.render e))

/-- `Value.Int16`. -/
def Value.Int16 (v : Value) (dv : List GoInt) : GoInt × Option Str :=
  get v dv parseInt16

/-- `Value.MustInt16`. -/
def Value.MustInt16 (v : Value) (dv : List GoInt) : GoInt :=
  must (v.Int16 dv)

/-- `Value.Int16Slice`. -/
def Value.Int16Slice (v : Value) (opts : List (OptionF GoInt)) : List GoInt × Option Str :=
  let option := getOpts opts
  get v option.getDefault (fun payload => toSlice payload option.delimiter parseInt16 [])

/-- `Value.MustInt16Slice`. -/
def Value.MustInt16Slice (v : Value) (opts : List (OptionF GoInt)) : List GoInt :=
  must (v.Int16Slice opts)

/-- `parseInt32`: `strconv.ParseInt(payload, 0, 32)` with zero on error. -/
def parseInt32 (payload : Str) : Int × Option Str :=
  match ParseInt payload 0 32 with
  | (i, none) => (i, none)
  | (_, some e) => (0, some (NumError.render e))

/-- `Value.Int32`. -/
def Value.Int32 (v : Value) (dv : List GoInt) : GoInt × Option Str :=
  get v dv parseInt32

/-- `Value.MustInt32`. -/
def Value.MustInt32 (v : Value) (dv : List GoInt) : GoInt :=
  must (v.Int32 dv)

/-- `Value.Int32Slice`. -/
def Value.Int32Slice (v : Value) (opts : List (OptionF GoInt)) : List GoInt × Option Str :=
  let option := getOpts opts
  get v option.getDefault (fun payload => toSlice payload option.delimiter parseInt32 [])

/-- `Value.MustInt32Slice`. -/
def Value.MustInt32Slice (v : Value) (opts : List (OptionF GoInt)) : List GoInt :=
  must (v.Int32Slice opts)

/-- `parseInt64`: `strconv.ParseInt(payload, 0, 64)` passed through —
unlike the narrower widths it returns `ParseInt`'s (possibly clamped)
value together with the error. -/
def parseInt64 (payload : Str) : Int × Option Str :=
  let p := ParseInt payload 0 64
  (p.1, p.2.map NumError.render)

/-- `Value.Int64`. -/
def Value.Int64 (v : Value) (dv : List GoInt) : GoInt × Option Str :=
  get v dv parseInt64

/-- `Value.MustInt64`. -/
def Value.MustInt64 (v : Value) (dv : List GoInt) : GoInt :=
  must (v.Int64 dv)

/-- `Value.Int64Slice`. -/
def Value.Int64Slice (v : Value) (opts : List (OptionF GoInt)) : List GoInt × Option Str :=
  let option := getOpts opts
  get v option.getDefault (fun payload => toSlice payload option.delimiter parseInt64 [])

/-- `Value.MustInt64Slice`. -/
def Value.MustInt64Slice (v : Value) (opts : List (OptionF GoInt)) : List GoInt :=
  must (v.Int64Slice opts)

/-!
Claim theorems.
-/

/-- Stripping only the *leading* dashes — the normalization the spec's
wording claims for stored keys and error messages
(`strings.TrimLeft(s, "-")`); the code actually uses `strings.Trim`, which
also strips trailing dashes. -/
def trimLeftDash (s : Str) : Str := s.dropWhile (fun c => c == '-')

/-- C4: a `Value` with an empty payload yields `(true, nil)` from the
boolean accessor when no caller default is supplied, and the caller's first
default with nil error when one is. -/
theorem c4_bool_empty_payload : ∀ v : Value, v.payload = [] →
    Value.Bool v [] = (true, none) ∧
    ∀ (d : Bool) (rest : List Bool), Value.Bool v (d :: rest) = (d, none) := by
  intro v h
  constructor
  · simp [Value.Bool, get_unfold, h]
  · intro d rest
    simp [Value.Bool, get_unfold, h]

/-- C4 witness: the bare flag `--flag` tokenizes to an empty payload, and
its boolean reading is `true` with no error (resp. the supplied default). -/
theorem c4_bool_empty_payload_witness :
    Value.Bool (Value.mk (gs "--flag") []) [] = (true, none) ∧
    Value.Bool (Value.mk (gs "--flag") []) [false] = (false, none) :=
  ⟨(c4_bool_empty_payload ⟨gs "--flag", []⟩ rfl).1,
   (c4_bool_empty_payload ⟨gs "--flag", []⟩ rfl).2 false []⟩

/-- C8: a key absent from the parsed table looks up as the zero `Value`;
scalar extraction with default `1234` yields `(1234, nil)`, and with no
default yields the zero value plus a non-nil error. -/
theorem c8_absent_key_defaults : ∀ (osArgs : List Str) (k : Str),
    (∀ e ∈ DefaultArgsx.parseArgs osArgs, e.1 ≠ k) →
    Fetch osArgs k = ⟨[], []⟩ ∧
    Value.Int (Fetch osArgs k) [1234] = (1234, none) ∧
    (∀ (T : Type) [Inhabited T] (parse : Str → T × Option Str),
      get (Fetch osArgs k) [] parse = ((default : T), some (gs "invalid value: empty"))) := by
  intro osArgs k habs
  have hfind : (DefaultArgsx.parseArgs osArgs).find? (fun e => e.1 == k) = none := by
    rw [List.find?_eq_none]
    intro e he
    simpa using habs e he
  have hf : Fetch osArgs k = ⟨[], []⟩ := by
    rw [Fetch, tableGet, hfind]
  refine ⟨hf, ?_, ?_⟩
  · rw [hf]
    simp [Value.Int, get_unfold]
  · intro T inst parse
    rw [hf]
    simp [get_unfold]

/-- C8 witness: with only the program name, `config` is absent. -/
theorem c8_absent_key_defaults_witness :
    Value.Int (Fetch [gs "prog"] (gs "config")) [1234] = (1234, none) :=
  (c8_absent_key_defaults [gs "prog"] (gs "config")
    (by rw [DefaultArgsx.parseArgs_eq, Argsx.parseArgs_eval]; decide)).2.1

/-- C6 counterexample: the error for a bare `--flag` embeds the raw key
`--flag`, not the normalized key `flag` that the claim says it names. -/
theorem c6_error_names_raw_key :
    Value.Int (Fetch [gs "prog", gs "--flag"] (gs "flag")) [] =
      (0, some (gs "args not specified value for key: `--flag`")) ∧
    gs "args not specified value for key: `--flag`" ≠
      gs "args not specified value for key: `" ++ trimLeftDash (gs "--flag") ++ gs "`" := by
  rw [Fetch, DefaultArgsx.parseArgs_eq, Argsx.parseArgs_eval]
  exact ⟨by decide, by decide⟩

/-- C6 amended: scalar extraction from a table-originated `Value` (non-empty
originating key) with empty payload and no default returns the zero value
and an error naming the *raw* key exactly as stored — leading dashes
included — not the normalized key. -/
theorem c6_missing_value_error_amended :
    ∀ (T : Type) [Inhabited T] (parse : Str → T × Option Str) (v : Value),
    v.fullkey ≠ [] → v.payload = [] →
    get v [] parse =
      ((default : T), some (gs "args not specified value for key: `" ++ v.fullkey ++ gs "`")) := by
  intro T inst parse v hk hp
  simp [get_unfold, hp, List.length_eq_zero, hk]

/-- C6 amended witness: the record stored for bare `--flag`. -/
theorem c6_missing_value_error_amended_witness :
    get (Value.mk (gs "--flag") []) [] (fun s => (s, none)) =
      (([] : Str), some (gs "args not specified value for key: `" ++ gs "--flag" ++ gs "`")) :=
  c6_missing_value_error_amended Str (fun s => (s, none)) ⟨gs "--flag", []⟩ (by decide) rfl

/-- C2 counterexample: an empty-string token does not merely get skipped —
it terminates tokenization, so the flag `--a b` after it is *not* recorded,
while without the empty token it is. -/
theorem c2_empty_token_stops_scan :
    Argsx.parseArgs [gs "prog", [], gs "--a", gs "b"] = [] ∧
    Argsx.parseArgs [gs "prog", gs "--a", gs "b"] = [(gs "a", ⟨gs "--a", gs "b"⟩)] := by
  simp only [Argsx.parseArgs_eval]
  exact ⟨by decide, by decide⟩

/-- C2 amended: a *non-empty* token that does not begin with `-` is skipped
(the scan continues at the next cursor position), while an empty-string
token — like a cursor already past the end — makes `getKV` return the
`("", "")` sentinel and the parse loop stop there. -/
theorem c2_skip_amended : ∀ (args : List Str) (idx : Nat) (tbl : Table),
    ((Argsx.next args idx).1 ≠ [] → hasPrefix (Argsx.next args idx).1 ['-'] = false →
      Argsx.getKV args idx = Argsx.getKV args (idx + 1)) ∧
    ((Argsx.next args idx).1 = [] → Argsx.parseArgsLoop args idx tbl = tbl) := by
  intro args idx tbl
  constructor
  · intro h1 h2
    have := Argsx.getKV_skip h1 h2
    rwa [(Argsx.next_of_nonempty h1).2] at this
  · intro h1
    refine Argsx.parseArgsLoop_stop ?_
    rw [Argsx.getKV_stop h1]
    exact ⟨rfl, rfl⟩

/-- C2 amended witness: `noise` is skipped at cursor 1 of
`["prog","noise","--a","b"]`; the empty token at cursor 1 of `["prog",""]`
stops the loop with an empty table. -/
theorem c2_skip_amended_witness :
    Argsx.getKV [gs "prog", gs "noise", gs "--a", gs "b"] 1 =
      Argsx.getKV [gs "prog", gs "noise", gs "--a", gs "b"] 2 ∧
    Argsx.parseArgsLoop [gs "prog", []] 1 [] = [] :=
  ⟨(c2_skip_amended [gs "prog", gs "noise", gs "--a", gs "b"] 1 []).1 (by decide) (by decide),
   (c2_skip_amended [gs "prog", []] 1 []).2 (by decide)⟩

/-- C3 counterexample: the stored key is `strings.Trim(rawKey, "-")`, which
strips *trailing* dashes too — `--x-` is stored under `x`, not under the
leading-stripped `x-`; and the lone token `-` is stored under the *empty*
key, refuting non-emptiness. -/
theorem c3_trim_both_ends_and_empty_key :
    (Argsx.parseArgs [gs "prog", gs "--x-", gs "v"] = [(gs "x", ⟨gs "--x-", gs "v"⟩)] ∧
      trimLeftDash (gs "--x-") = gs "x-" ∧ (gs "x" : Str) ≠ gs "x-") ∧
    Argsx.parseArgs [gs "prog", gs "-"] = [([], ⟨gs "-", []⟩)] := by
  simp only [Argsx.parseArgs_eval]
  exact ⟨⟨by decide, by decide, by decide⟩, by decide⟩

/-- C5: `MustTimeSlice` does not perform its counterpart `TimeSlice`'s
extraction — its body calls `DurationSlice`: on `"1m,2s"` it returns the
*duration* list `[60s, 2s]` in nanoseconds (`[]time.Duration`, not
`[]time.Time`), and it ignores its `layout` argument entirely. -/
theorem c5_mustTimeSlice_is_durationSlice :
    Value.MustTimeSlice (NewValue (gs "1m,2s")) (gs "15:04") [] =
      [60000000000, 2000000000] ∧
    ∀ (v : Value) (l1 l2 : Str) (opts : List (OptionF GoInt)),
      Value.MustTimeSlice v l1 opts = Value.MustTimeSlice v l2 opts :=
  ⟨by decide, fun v l1 l2 opts => rfl⟩

/-- C10: the `sync.Once`-guarded scan of `argsx.go` and the mutex/atomic
double-checked scan of `parser.go` build identical tables on every argument
list. -/
theorem c10_tokenizers_agree : ∀ args : List Str,
    DefaultArgsx.parseArgs args = Argsx.parseArgs args :=
  fun args => DefaultArgsx.parseArgsLoop_eq args 1 []

/-- Dropping leading dashes is the identity on a list that does not start
with `-`. -/
theorem dropWhile_dash_of_head {l : Str} (h : l.head? ≠ some '-') :
    l.dropWhile (fun c => c == '-') = l := by
  cases l with
  | nil => rfl
  | cons c t =>
    have hc : ¬ c = '-' := by simpa using h
    simp [List.dropWhile_cons, hc]

/-- `strings.Trim("--" + K, "-") = K` when `K` neither starts nor ends with
a dash. -/
theorem trimDash_dashdash {K : Str} (h2 : K.head? ≠ some '-')
    (h3 : K.getLast? ≠ some '-') : trimDash ('-' :: '-' :: K) = K := by
  rw [trimDash]
  have e1 : ('-' :: '-' :: K).dropWhile (fun c => c == '-') =
      K.dropWhile (fun c => c == '-') := by
    simp [List.dropWhile_cons]
  rw [e1, dropWhile_dash_of_head h2]
  have h4 : K.reverse.head? ≠ some '-' := by
    rw [List.head?_reverse]
    exact h3
  rw [dropWhile_dash_of_head h4, List.reverse_reverse]

/-- C1 counterexample: the key `a=b` has no dash ambiguity (no leading or
trailing dash) and the payload `p` has no delimiter and no leading dash,
yet the round-trip fails: the tokenizer splits `--a=b` at the `=`, so
looking up `a=b` finds nothing. -/
theorem c1_roundtrip_fails_on_eq_key :
    ((gs "a=b" : Str) ≠ [] ∧ (gs "a=b").head? ≠ some '-' ∧
      (gs "a=b").getLast? ≠ some '-' ∧ hasPrefix (gs "p") ['-'] = false ∧
      (gs "p").contains ',' = false) ∧
    (Fetch [gs "prog", '-' :: '-' :: gs "a=b", gs "p"] (gs "a=b")).payload ≠ gs "p" := by
  constructor
  · exact ⟨by decide, by decide, by decide, by decide, by decide⟩
  · rw [Fetch, DefaultArgsx.parseArgs_eq, Argsx.parseArgs_eval]
    decide

/-- C1 amended: the round-trip holds for any key `K` with no leading or
trailing dash and — additionally to the claim — no embedded `=`, and any
payload `P` that does not begin with `-` and contains no delimiter:
tokenizing `["prog", "--K", P]` and looking up `K` yields exactly `P`. -/
theorem c1_roundtrip_amended : ∀ (K P : Str),
    K ≠ [] → K.head? ≠ some '-' → K.getLast? ≠ some '-' → K.contains '=' = false →
    hasPrefix P ['-'] = false → P.contains ',' = false →
    (Fetch [gs "prog", '-' :: '-' :: K, P] K).payload = P := by
  intro K P h1 h2 h3 h4 h5 h6
  rw [Fetch, DefaultArgsx.parseArgs_eq]
  have hn1 : Argsx.next [gs "prog", '-' :: '-' :: K, P] 1 = ('-' :: '-' :: K, 2) := by
    simp [Argsx.next]
  have hn2 : Argsx.next [gs "prog", '-' :: '-' :: K, P] 2 = (P, 3) := by
    simp [Argsx.next]
  have hn3 : Argsx.next [gs "prog", '-' :: '-' :: K, P] 3 = ([], 3) := by
    simp [Argsx.next]
  have hkv1 : Argsx.getKV [gs "prog", '-' :: '-' :: K, P] 1 = ('-' :: '-' :: K, P, 3) := by
    rw [Argsx.getKV_bare_val (by simp only [hn1]; simp)
      (by simp only [hn1]; simp [hasPrefix, List.isPrefixOf])
      (by
        simp only [hn1]
        have h4' : '=' ∉ K := by simpa using h4
        simp [List.contains_cons, h4'])
      (by simp only [hn1, hn2]; exact h5)]
    simp only [hn1, hn2]
  have hkv3 : Argsx.getKV [gs "prog", '-' :: '-' :: K, P] 3 = ([], [], 3) := by
    rw [Argsx.getKV_stop (by rw [hn3])]
    rw [hn3]
  have hl3 : ∀ tbl, Argsx.parseArgsLoop [gs "prog", '-' :: '-' :: K, P] 3 tbl = tbl := by
    intro tbl
    refine Argsx.parseArgsLoop_stop ?_
    rw [hkv3]
    exact ⟨rfl, rfl⟩
  have hl1 : Argsx.parseArgsLoop [gs "prog", '-' :: '-' :: K, P] 1 [] =
      [(trimDash ('-' :: '-' :: K), ⟨'-' :: '-' :: K, P⟩)] := by
    rw [Argsx.parseArgsLoop_step (by rw [hkv1]; simp)]
    simp only [hkv1]
    exact hl3 _
  rw [Argsx.parseArgs, hl1, trimDash_dashdash h2 h3, tableGet]
  simp [List.find?_cons]

/-- C1 amended witness: `--config path.yaml` round-trips. -/
theorem c1_roundtrip_amended_witness :
    (Fetch [gs "prog", '-' :: '-' :: gs "config", gs "path.yaml"] (gs "config")).payload =
      gs "path.yaml" :=
  c1_roundtrip_amended (gs "config") (gs "path.yaml")
    (by decide) (by decide) (by decide) (by decide) (by decide) (by decide)

/-- A `-`-prefixed token keeps its `-` prefix after `takeWhile (· ≠ '=')`,
since `'-' ≠ '='`. -/
theorem takeWhile_keeps_dash {v : Str} (h : hasPrefix v ['-'] = true) :
    hasPrefix (v.takeWhile (fun c => c != '=')) ['-'] = true := by
  cases v with
  | nil => simp [hasPrefix, List.isPrefixOf] at h
  | cons c t =>
    have hc : c = '-' := by
      have := by simpa [hasPrefix, List.isPrefixOf] using h
      exact this.symm
    subst hc
    simp [hasPrefix, List.takeWhile_cons, List.isPrefixOf]

/-- Every (key, value) pair `getKV` produces is either the terminating
sentinel or has a `-`-prefixed raw key. -/
theorem getKV_key_shape (args : List Str) (idx : Nat) :
    ((Argsx.getKV args idx).1 = [] ∧ (Argsx.getKV args idx).2.1 = []) ∨
    hasPrefix (Argsx.getKV args idx).1 ['-'] = true := by
  refine Argsx.getKV.induct args (fun i =>
    ((Argsx.getKV args i).1 = [] ∧ (Argsx.getKV args i).2.1 = []) ∨
    hasPrefix (Argsx.getKV args i).1 ['-'] = true) ?_ ?_ ?_ ?_ ?_ idx
  case _ =>
    intro i p hv
    rw [Argsx.getKV_stop hv]
    simp
  case _ =>
    intro i p hv hpre ih
    rw [Argsx.getKV_skip hv hpre]
    exact ih
  case _ =>
    intro i p hv hpre hc
    have hpre' : hasPrefix (Argsx.next args i).1 ['-'] = true := by simpa using hpre
    rw [Argsx.getKV_eqtok hv hpre' hc]
    exact Or.inr (takeWhile_keeps_dash hpre')
  case _ =>
    intro i p hv hpre hc q hq
    have hpre' : hasPrefix (Argsx.next args i).1 ['-'] = true := by simpa using hpre
    rw [Argsx.getKV_bare_val hv hpre' (by simpa using hc) hq]
    exact Or.inr hpre'
  case _ =>
    intro i p hv hpre hc q hq
    have hpre' : hasPrefix (Argsx.next args i).1 ['-'] = true := by simpa using hpre
    rw [Argsx.getKV_bare_flag hv hpre' (by simpa using hc) (by simpa using hq)]
    exact Or.inr hpre'

/-- Table invariant of the parse loop: every entry it adds is stored under
`strings.Trim(rawKey, "-")` and its raw key begins with `-`. -/
theorem parseArgsLoop_keys (args : List Str) : ∀ (idx : Nat) (tbl : Table),
    (∀ e ∈ tbl, e.1 = trimDash e.2.fullkey ∧ hasPrefix e.2.fullkey ['-'] = true) →
    ∀ e ∈ Argsx.parseArgsLoop args idx tbl,
      e.1 = trimDash e.2.fullkey ∧ hasPrefix e.2.fullkey ['-'] = true := by
  intro idx tbl
  refine Argsx.parseArgsLoop.induct args (fun i t =>
    (∀ e ∈ t, e.1 = trimDash e.2.fullkey ∧ hasPrefix e.2.fullkey ['-'] = true) →
    ∀ e ∈ Argsx.parseArgsLoop args i t,
      e.1 = trimDash e.2.fullkey ∧ hasPrefix e.2.fullkey ['-'] = true) ?_ ?_ idx tbl
  case _ =>
    intro i t r h hinv
    rw [Argsx.parseArgsLoop_stop h]
    exact hinv
  case _ =>
    intro i t r h ih hinv
    rw [Argsx.parseArgsLoop_step h]
    refine ih ?_
    intro e he
    rcases List.mem_cons.mp he with he | he
    · subst he
      refine ⟨rfl, ?_⟩
      rcases getKV_key_shape args i with hs | hs
      · exact absurd hs h
      · exact hs
    · exact hinv e he

/-- C3 amended: every key in the parsed table is the raw key with leading
*and trailing* dashes stripped (`strings.Trim(rawKey, "-")`, not just a
leading strip), the raw key always begins with `-`, and — as the
counterexample shows — the stored key may be empty when the raw key is all
dashes. -/
theorem c3_keys_amended : ∀ (args : List Str), ∀ e ∈ Argsx.parseArgs args,
    e.1 = trimDash e.2.fullkey ∧ hasPrefix e.2.fullkey ['-'] = true := by
  intro args
  exact parseArgsLoop_keys args 1 [] (by simp)

/-- C3 amended witness: the entry recorded for `--x-` is keyed `x`. -/
theorem c3_keys_amended_witness :
    (gs "x" : Str) = trimDash (Value.mk (gs "--x-") (gs "v")).fullkey ∧
    hasPrefix (Value.mk (gs "--x-") (gs "v")).fullkey ['-'] = true :=
  c3_keys_amended [gs "prog", gs "--x-", gs "v"] (gs "x", ⟨gs "--x-", gs "v"⟩)
    (by rw [Argsx.parseArgs_eval]; decide)

/-- The sequence-extraction empty-segment policy exactly as the spec words
it (the comparison definition for C7): an empty segment emits the default
element when one was supplied and is skipped otherwise; a non-empty segment
is parsed, the first failure aborting the whole extraction with `nil`. -/
def sliceSpec {T : Type} (parse : Str → T × Option Str) (d? : Option T) :
    List Str → List T × Option Str
  | [] => ([], none)
  | s :: rest =>
    if s = [] then
      match d? with
      | none => sliceSpec parse d? rest
      | some d =>
        match sliceSpec parse d? rest with
        | (l, none) => (d :: l, none)
        | (_, some e) => ([], some e)
    else
      match parse s with
      | (_, some e) => ([], some e)
      | (b, none) =>
        match sliceSpec parse d? rest with
        | (l, none) => (b :: l, none)
        | (_, some e) => ([], some e)

/-- On failure `sliceSpec` reports the empty (`nil`) sequence. -/
theorem sliceSpec_fst_nil {T : Type} (parse : Str → T × Option Str) (d? : Option T) :
    ∀ (segs : List Str) (l : List T) (err : Str),
    sliceSpec parse d? segs = (l, some err) → l = [] := by
  intro segs
  induction segs with
  | nil =>
    intro l err h
    simp [sliceSpec] at h
  | cons s rest ih =>
    intro l err h
    by_cases hs : s = []
    · subst hs
      simp only [sliceSpec, if_pos rfl] at h
      cases d? with
      | none => exact ih l err h
      | some d =>
        rcases hm : sliceSpec parse (some d) rest with ⟨l2, e2⟩
        rw [hm] at h
        cases e2 with
        | none => simp at h
        | some e3 => simp at h; exact h.1
    · simp only [sliceSpec, if_neg hs] at h
      rcases hp : parse s with ⟨b, e⟩
      rw [hp] at h
      cases e with
      | none =>
        rcases hm : sliceSpec parse d? rest with ⟨l2, e2⟩
        rw [hm] at h
        cases e2 with
        | none => simp at h
        | some e3 => simp at h; exact h.1
      | some e3 => simp at h; exact h.1

/-- The accumulator loop of `toSlice` computes `sliceSpec` of the segment
list, prefixed by the accumulator on success. -/
theorem toSliceAux_spec {T : Type} (parse : Str → T × Option Str) (dv : List T) :
    ∀ (segs : List Str) (acc : List T),
    toSliceAux parse dv segs acc =
      (match sliceSpec parse dv.head? segs with
       | (l, none) => (acc ++ l, none)
       | (_, some e) => ([], some e)) := by
  intro segs
  induction segs with
  | nil =>
    intro acc
    simp [toSliceAux, sliceSpec]
  | cons s rest ih =>
    intro acc
    by_cases hs : s = []
    · subst hs
      cases dv with
      | nil =>
        simp only [toSliceAux, sliceSpec, List.length_nil, if_pos rfl, List.head?_nil]
        exact ih acc
      | cons d ds =>
        simp only [toSliceAux, sliceSpec, List.length_nil, if_pos rfl, List.head?_cons]
        rw [ih (acc ++ [d])]
        rcases hmatch : sliceSpec parse (some d) rest with ⟨l, e⟩
        cases e with
        | none => simp [hmatch]
        | some err => simp [hmatch]
    · have hlen : ¬ s.length = 0 := by simpa [List.length_eq_zero] using hs
      simp only [toSliceAux, sliceSpec, if_neg hlen, if_neg hs]
      rcases hp : parse s with ⟨b, e⟩
      cases e with
      | none =>
        simp only []
        rw [ih (acc ++ [b])]
        rcases hmatch : sliceSpec parse dv.head? rest with ⟨l, e2⟩
        cases e2 with
        | none => simp [hmatch]
        | some err => simp [hmatch]
      | some err => simp

/-- C7 counterexample: string sequence extraction does not skip empty
segments.  `Value.StringSlice` bypasses the `toSlice` slice-builder and
returns the `strings.Split` output verbatim, so on `"a,,b"` (no default
element supplied) the empty middle segment contributes an empty string —
unlike the claim's policy, under which it would contribute nothing. -/
theorem c7_string_slice_keeps_empty_segments :
    Value.StringSlice (NewValue (gs "a,,b")) [] = ([gs "a", [], gs "b"], none) ∧
    sliceSpec (fun s => (s, none)) none (splitGo (gs "a,,b") (gs ",")) =
      ([gs "a", gs "b"], none) ∧
    ([gs "a", [], gs "b"] : List Str) ≠ [gs "a", gs "b"] :=
  ⟨by decide, by decide, by decide⟩

/-- C7 amended: every sequence accessor that goes through the `toSlice`
slice-builder (every element type except string) implements exactly the
spec's empty-segment policy — default element appended in place when
supplied, segment skipped otherwise, first parse failure aborts — and the
boolean sequence accessor always passes `true` as that default element,
whatever the caller's options were; string sequence extraction bypasses the
slice-builder and returns the split segments verbatim, empty segments
included. -/
theorem c7_empty_segment_policy :
    (∀ (T : Type) (parse : Str → T × Option Str) (dv : List T) (payload delimiter : Str),
      toSlice payload delimiter parse dv = sliceSpec parse dv.head? (splitGo payload delimiter)) ∧
    (∀ (v : Value) (opts : List (OptionF GoBool)), v.payload ≠ [] →
      Value.BoolSlice v opts =
        sliceSpec parseBool (some true) (splitGo v.payload (getOpts opts).delimiter)) ∧
    (∀ (v : Value) (opts : List (OptionF Str)), v.payload ≠ [] →
      Value.StringSlice v opts =
        (splitGo v.payload (getOpts opts).delimiter, none)) := by
  have h1 : ∀ (T : Type) (parse : Str → T × Option Str) (dv : List T) (payload delimiter : Str),
      toSlice payload delimiter parse dv = sliceSpec parse dv.head? (splitGo payload delimiter) := by
    intro T parse dv payload delimiter
    rw [toSlice, toSliceAux_spec]
    rcases hmatch : sliceSpec parse dv.head? (splitGo payload delimiter) with ⟨l, e⟩
    cases e with
    | none => simp
    | some err =>
      have := sliceSpec_fst_nil parse dv.head? (splitGo payload delimiter) l err hmatch
      subst this
      simp
  refine ⟨h1, ?_, ?_⟩
  · intro v opts hp
    have hlen : ¬ v.payload.length = 0 := by simpa [List.length_eq_zero] using hp
    rw [Value.BoolSlice, get_unfold]
    simp only [if_neg hlen]
    exact h1 Bool parseBool [true] v.payload (getOpts opts).delimiter
  · intro v opts hp
    have hlen : ¬ v.payload.length = 0 := by simpa [List.length_eq_zero] using hp
    rw [Value.StringSlice, get_unfold]
    simp only [if_neg hlen]

/-- C7 amended witness: `true,,F` through the boolean slice-builder and
`a,,b` through the verbatim string split, both under the default
delimiter. -/
theorem c7_empty_segment_policy_witness :
    Value.BoolSlice (NewValue (gs "true,,F")) [] =
      sliceSpec parseBool (some true)
        (splitGo (gs "true,,F") (getOpts ([] : List (OptionF GoBool))).delimiter) ∧
    Value.StringSlice (NewValue (gs "a,,b")) [] =
      (splitGo (gs "a,,b") (getOpts ([] : List (OptionF Str))).delimiter, none) :=
  ⟨c7_empty_segment_policy.2.1 (NewValue (gs "true,,F")) [] (by decide),
   c7_empty_segment_policy.2.2 (NewValue (gs "a,,b")) [] (by decide)⟩

/-- The numeric value of a decimal digit string (most significant first). -/
def decVal (s : Str) : Nat := s.foldl (fun n c => n * 10 + (c.toNat - 48)) 0

/-- The digit-accumulation fold never decreases below its accumulator. -/
theorem foldl_digits_ge : ∀ (ds : List Char) (n : Nat),
    n ≤ ds.foldl (fun m c => m * 10 + (c.toNat - 48)) n := by
  intro ds
  induction ds with
  | nil => intro n; simp
  | cons c rest ih =>
    intro n
    have h1 := ih (n * 10 + (c.toNat - 48))
    simp only [List.foldl_cons]
    omega

/-- On pure decimal digits with an 8-bit `maxVal`, the `ParseUint` loop
returns the accumulated value when it fits in `maxVal = 255` and a range
error otherwise. -/
theorem parseUintLoop_digits (s0 : Str) : ∀ (ds : List Char) (n : Nat),
    (∀ c ∈ ds, '0' ≤ c ∧ c ≤ '9') → n ≤ 255 →
    parseUintLoop 10 true ((2 ^ 64 - 1) / 10 + 1) 255 s0 ds n false =
      (if ds.foldl (fun m c => m * 10 + (c.toNat - 48)) n ≤ 255
       then (ds.foldl (fun m c => m * 10 + (c.toNat - 48)) n, false, none)
       else (255, false, some ⟨gs "ParseUint", s0, .range⟩)) := by
  intro ds
  induction ds with
  | nil =>
    intro n hd hn
    simp [parseUintLoop, hn]
  | cons c rest ih =>
    intro n hd hn
    have hc := hd c (List.mem_cons_self c rest)
    have hb1 : 48 ≤ c.toNat := by
      have h := hc.1
      rw [Char.le_def] at h
      exact h
    have hb2 : c.toNat ≤ 57 := by
      have h := hc.2
      rw [Char.le_def] at h
      exact h
    have hcu : ¬ (c = '_' ∧ (true : Bool) = true) := by
      rintro ⟨h, -⟩
      rw [h] at hb2
      exact absurd hb2 (by decide)
    have h64 : (2 : Nat) ^ 64 = 18446744073709551616 := by norm_num
    have hcut : ¬ (((2 : Nat) ^ 64 - 1) / 10 + 1 ≤ n) := by
      have : (255 : Nat) < ((2 : Nat) ^ 64 - 1) / 10 + 1 := by
        rw [h64]
        decide
      omega
    have hd10 : ¬ (10 ≤ c.toNat - 48) := by omega
    have hm1 : (n * 10) % 2 ^ 64 = n * 10 := by
      apply Nat.mod_eq_of_lt
      omega
    have hm2 : (n * 10 + (c.toNat - 48)) % 2 ^ 64 = n * 10 + (c.toNat - 48) := by
      apply Nat.mod_eq_of_lt
      omega
    rw [parseUintLoop]
    rw [if_neg hcu]
    simp only [if_pos hc, if_neg hd10, if_neg hcut, hm1, hm2]
    have hnlt : ¬ (n * 10 + (c.toNat - 48) < n * 10) := by omega
    by_cases hbig : 255 < n * 10 + (c.toNat - 48)
    · rw [if_pos (by omega : n * 10 + (c.toNat - 48) < n * 10 ∨ 255 < n * 10 + (c.toNat - 48))]
      have hge := foldl_digits_ge rest (n * 10 + (c.toNat - 48))
      have hcond : ¬ (List.foldl (fun m c => m * 10 + (c.toNat - 48)) n (c :: rest) ≤ 255) := by
        rw [List.foldl_cons]
        omega
      rw [if_neg hcond]
    · rw [if_neg (by omega : ¬ (n * 10 + (c.toNat - 48) < n * 10 ∨ 255 < n * 10 + (c.toNat - 48)))]
      rw [ih (n * 10 + (c.toNat - 48)) (fun x hx => hd x (List.mem_cons_of_mem c hx)) (by omega)]
      rw [List.foldl_cons]

/-- `ParseUint(s, 0, 8)` on a canonical decimal string (digits only, no
leading zero): the value when it fits 8 unsigned bits, a range error
otherwise. -/
theorem ParseUint_digits (s : Str) (hd : ∀ c ∈ s, '0' ≤ c ∧ c ≤ '9') (hne : s ≠ [])
    (hh : s.head? ≠ some '0') :
    ParseUint s 0 8 =
      (if decVal s ≤ 255 then (decVal s, none)
       else (255, some ⟨gs "ParseUint", s, .range⟩)) := by
  have hloop := parseUintLoop_digits s s 0 hd (by omega)
  unfold ParseUint
  rw [if_neg hne]
  simp only [if_neg hh]
  norm_num
  norm_num at hloop
  rw [hloop]
  simp only [decVal]
  by_cases hv : List.foldl (fun m c => m * 10 + (c.toNat - 48)) 0 s ≤ 255
  · rw [if_pos hv, if_pos hv]
    simp
  · rw [if_neg hv, if_neg hv]

/-- `ParseInt(s, 0, 8)` on a canonical decimal string whose value exceeds
127 returns the clamped 127 together with a range error. -/
theorem ParseInt_digits_pos (s : Str) (hd : ∀ c ∈ s, '0' ≤ c ∧ c ≤ '9') (hne : s ≠ [])
    (hh : s.head? ≠ some '0') (hbig : 127 < decVal s) :
    ParseInt s 0 8 = (127, some ⟨gs "ParseInt", s, .range⟩) := by
  obtain ⟨c, t, rfl⟩ : ∃ c t, s = c :: t := by
    cases s with
    | nil => exact absurd rfl hne
    | cons c t => exact ⟨c, t, rfl⟩
  have hc := hd c (List.mem_cons_self c t)
  have hcp : c ≠ '+' := by
    intro h
    rw [h] at hc
    exact absurd hc.1 (by decide)
  have hcm : c ≠ '-' := by
    intro h
    rw [h] at hc
    exact absurd hc.1 (by decide)
  unfold ParseInt
  rw [if_neg hne]
  simp only [if_neg hcp, if_neg hcm]
  rw [ParseUint_digits (c :: t) hd hne hh]
  by_cases hv : decVal (c :: t) ≤ 255
  · rw [if_pos hv]
    unfold ParseInt.parseIntRange
    have h128 : (128 : Nat) ≤ decVal (c :: t) := by omega
    norm_num [h128]
  · rw [if_neg hv]
    unfold ParseInt.parseIntRange
    norm_num

/-- `ParseInt("-" + s, 0, 8)` with magnitude above 128 returns the clamped
`-128` together with a range error. -/
theorem ParseInt_digits_neg (s : Str) (hd : ∀ c ∈ s, '0' ≤ c ∧ c ≤ '9') (hne : s ≠ [])
    (hh : s.head? ≠ some '0') (hbig : 128 < decVal s) :
    ParseInt ('-' :: s) 0 8 = (-128, some ⟨gs "ParseInt", '-' :: s, .range⟩) := by
  unfold ParseInt
  rw [if_neg (by simp : ¬ ('-' :: s : Str) = [])]
  simp only [if_neg (by decide : ¬ ('-' : Char) = '+'), if_pos (rfl : ('-' : Char) = '-'),
    ite_true]
  rw [ParseUint_digits s hd hne hh]
  by_cases hv : decVal s ≤ 255
  · rw [if_pos hv]
    unfold ParseInt.parseIntRange
    norm_num [hbig]
  · rw [if_neg hv]
    unfold ParseInt.parseIntRange
    norm_num

/-- C9: any decimal payload outside the signed 8-bit range makes the 8-bit
accessor return the `int8` zero value plus an overflow (`value out of
range`) error — never a truncated value — while 16/32/64-bit accessors
enforce their own bounds (`1000` is in range for 16 bits, the width
boundaries overflow exactly at `2^(w-1)`). -/
theorem c9_int8_overflow :
    (∀ (v : Value) (s : Str), v.payload = s → (∀ c ∈ s, '0' ≤ c ∧ c ≤ '9') →
      s.head? ≠ some '0' → 127 < decVal s →
      Value.Int8 v [] = (0, some (NumError.render ⟨gs "ParseInt", s, .range⟩))) ∧
    (∀ (v : Value) (s : Str), v.payload = '-' :: s → (∀ c ∈ s, '0' ≤ c ∧ c ≤ '9') →
      s.head? ≠ some '0' → 128 < decVal s →
      Value.Int8 v [] = (0, some (NumError.render ⟨gs "ParseInt", '-' :: s, .range⟩))) ∧
    Value.Int8 (NewValue (gs "1000")) [] =
      (0, some (NumError.render ⟨gs "ParseInt", gs "1000", .range⟩)) ∧
    Value.Int16 (NewValue (gs "1000")) [] = (1000, none) ∧
    Value.Int16 (NewValue (gs "32768")) [] =
      (0, some (NumError.render ⟨gs "ParseInt", gs "32768", .range⟩)) ∧
    Value.Int32 (NewValue (gs "2147483647")) [] = (2147483647, none) ∧
    Value.Int32 (NewValue (gs "2147483648")) [] =
      (0, some (NumError.render ⟨gs "ParseInt", gs "2147483648", .range⟩)) ∧
    Value.Int64 (NewValue (gs "9223372036854775808")) [] =
      (9223372036854775807, some (NumError.render ⟨gs "ParseInt", gs "9223372036854775808", .range⟩)) := by
  refine ⟨?_, ?_, by decide, by decide, by decide, by decide, by decide, by decide⟩
  · intro v s hp hd hh hbig
    have hne : s ≠ [] := by
      intro h
      subst h
      simp [decVal] at hbig
    have hlen : ¬ v.payload.length = 0 := by
      rw [hp]
      simpa [List.length_eq_zero] using hne
    rw [Value.Int8, get_unfold]
    rw [if_neg hlen, hp]
    unfold parseInt8
    rw [ParseInt_digits_pos s hd hne hh hbig]
  · intro v s hp hd hh hbig
    have hne : s ≠ [] := by
      intro h
      subst h
      simp [decVal] at hbig
    have hlen : ¬ v.payload.length = 0 := by
      rw [hp]
      simp
    rw [Value.Int8, get_unfold]
    rw [if_neg hlen, hp]
    unfold parseInt8
    rw [ParseInt_digits_neg s hd hne hh hbig]


/-- C9 witness: payload `200` overflows `int8`. -/
theorem c9_int8_overflow_witness :
    Value.Int8 (NewValue (gs "200")) [] =
      (0, some (NumError.render ⟨gs "ParseInt", gs "200", ErrKind.range⟩)) :=
  c9_int8_overflow.1 (NewValue (gs "200")) (gs "200") rfl (by decide) (by decide) (by decide)
